import Mathlib

set_option maxRecDepth 100000

/-
Verification of the filtering / character-budget packing / document-building
pipeline of `src/role_policy.py` (with `src/resource_action.py` as a
secondary builder), shallowly embedded in Lean.

Modelling notes:
- Python strings become Lean `String`; `len` becomes `String.length`
  (both count characters).
- `json.dumps` with default arguments (separators `", "` and `": "`,
  `indent=None`) on the fixed policy template is embedded as explicit
  string concatenation (`renderPolicy`); this matches the Python output
  exactly for strings that need no JSON escaping (all AWS action names
  and resource names used by the program are plain ASCII without
  quotes or backslashes).
- Python integers (which may be negative, e.g. `max_char_count -
  estimated_json`) become `Int`.
-/

/-- Characters of `hay` start with the characters of `needle`
(models Python `str.startswith`). -/
def charsStartWith : List Char → List Char → Bool
  | _, [] => true
  | [], _ :: _ => false
  | c :: cs, d :: ds => c = d && charsStartWith cs ds

/-- Whether `needle` occurs as a contiguous run inside `hay`
(models Python `needle in hay`). -/
def charsContain : List Char → List Char → Bool
  | [], needle => needle.isEmpty
  | hay@(_ :: rest), needle => charsStartWith hay needle || charsContain rest needle

/-- Models Python `s.startswith(p)`. -/
def strStarts (s p : String) : Bool :=
  charsStartWith s.data p.data

/-- Models Python `needle in hay` for strings. -/
def strContains (hay needle : String) : Bool :=
  charsContain hay.data needle.data

/-- The `INCLUDE_SERVICES` list from `src/role_policy.py` (the uncommented entries). -/
def INCLUDE_SERVICES : List String :=
  ["acm", "acm-pca", "amplify", "amplifyuibuilder", "apigateway", "appconfig",
   "applicationinsights", "athena", "auditmanager", "autoscaling",
   "aws-marketplace", "backup", "backup-gateway", "batch", "bedrock",
   "cloudformation", "cloudfront", "cloudtrail", "cloudwatch", "codecommit",
   "codedeploy", "datasync", "ebs", "ec2", "ecr", "ecr-public", "ecs", "eks",
   "elasticache", "elasticbeanstalk", "elasticfilesystem",
   "elasticloadbalancing", "es", "events", "firehose", "glacier", "glue",
   "grafana", "guardduty", "iam", "kinesisanalytics", "kinesisvideo", "kms",
   "lambda", "logs", "quicksight", "ram", "rds", "redshift",
   "redshift-serverless", "s3", "sagemaker", "secretsmanager", "sns",
   "sqlworkbench", "sqs", "ssm", "sso", "states", "storagegateway", "sts",
   "swf", "vpc-lattice", "waf", "waf-regional", "wafv2", "xray"]

/-- The list comprehension in `main` of `src/role_policy.py`, generalized over
the two constants it uses (`INCLUDE_SERVICES` and the literal `"Create"`):
`[a for a in actions if any(a.startswith(p) for p in prefixes) and required in a]`. -/
def filterIncluded (prefixes : List String) (required : String)
    (actions : List String) : List String :=
  actions.filter (fun a => prefixes.any (fun p => strStarts a p) && strContains a required)

/-- The exact filter applied by `main` in `src/role_policy.py`. -/
def filteredActions (actions : List String) : List String :=
  filterIncluded INCLUDE_SERVICES "Create" actions

/-- The per-action cost counted by `slice_list`, the length of the
f-string of quote, action, comma, space, quote: the action's length
plus 4. -/
def marginal (a : String) : Int :=
  (a.length : Int) + 4

/-- The loop of `slice_list` in `src/role_policy.py`, with the loop state
(current slice, its counted length, accumulated result) made explicit. -/
def sliceAux (charLimit : Int) :
    List String → List String → Int → List (List String) → List (List String)
  | [], currentSlice, _, result =>
      if currentSlice.isEmpty then result else result ++ [currentSlice]
  | action :: rest, currentSlice, currentLength, result =>
      if currentLength + marginal action ≤ charLimit then
        sliceAux charLimit rest (currentSlice ++ [action])
          (currentLength + marginal action) result
      else
        sliceAux charLimit rest [action] ((action.length : Int))
          (result ++ [currentSlice])

/-- The function `slice_list(actions, char_limit)` from `src/role_policy.py`. -/
def slice_list (actions : List String) (charLimit : Int) : List (List String) :=
  sliceAux charLimit actions [] 0 []

/-- The JSON rendering of a list of plain strings, items joined by `", "`
(models `json.dumps` of the `Action` list, default separators). -/
def renderItems : List String → String
  | [] => ""
  | [a] => "\"" ++ a ++ "\""
  | a :: b :: rest => "\"" ++ a ++ "\", " ++ renderItems (b :: rest)

/-- The bracketed rendering of the action list: `[` + items + `]`. -/
def renderActionList (g : List String) : String :=
  "[" ++ renderItems g ++ "]"

/-- Everything of `json.dumps(policy_template)` (in `generate_policy` of
`src/role_policy.py`, default separators, insertion key order) that precedes
the `Action` list. -/
def docHead (resource : String) : String :=
  "\x7b\"Version\": \"2012-10-17\", \"Statement\": [\x7b\"Sid\": \"Deny"
    ++ resource ++ "\", \"Effect\": \"Deny\", \"Action\": "

/-- Everything of `json.dumps(policy_template)` that follows the `Action`
list: the resource wildcard and the hard-coded `Condition` block. -/
def docTail : String :=
  ", \"Resource\": \"*\", \"Condition\": \x7b\"Null\": \x7b\"aws:RequestTag/CostCentre\": \"true\", \"aws:PrincipalTag/ByassTaggingScp\": \"true\"\x7d\x7d\x7d]\x7d"

/-- Serialization (`json.dumps`) of the policy template with `Action` set to `g`
(what `main` writes to each output file, `indent=None`). -/
def renderPolicy (resource : String) (g : List String) : String :=
  docHead resource ++ renderActionList g ++ docTail

/-- Models `estimated_json = len(json.dumps(policy_template))` in `generate_policy`:
the serialized length of the template with an empty `Action` list. -/
def overheadOf (resource : String) : Nat :=
  (renderPolicy resource []).length

/-- The function `generate_policy(resource, actions, max_char_count)` from
`src/role_policy.py`, up to the packing step: the list of action groups.
The i-th produced policy is the template with `Action` set to the i-th
group; its serialization is `renderPolicy resource` of that group. -/
def generate_policy (resource : String) (actions : List String)
    (maxCharCount : Int) : List (List String) :=
  slice_list actions (maxCharCount - (overheadOf resource : Int))

/-- The serialized policy documents produced by one run of
`generate_policy` followed by `json.dumps` of each policy. -/
def policyDocs (resource : String) (actions : List String)
    (maxCharCount : Int) : List String :=
  (generate_policy resource actions maxCharCount).map (renderPolicy resource)

/-- Sum of the counted costs of the actions of a group: what `current_length`
would be after packing the whole group by appends. -/
def sumCost : List String → Int
  | [] => 0
  | a :: rest => marginal a + sumCost rest

/-- Relation between one emitted group and the next: the next group's first
action did not fit the counted size of this group (the closing condition of
the packing loop, stated with the group's full counted cost). -/
def nextOverflows (L : Int) (g g2 : List String) : Prop :=
  ∀ b, g2.head? = some b → L < sumCost g + marginal b

/-- The action string contains the `:` service-prefix delimiter. -/
def hasColon (a : String) : Bool :=
  a.data.any (fun c => c = ':')

/-- Split a character list at the first `:`. -/
def breakColon : List Char → List Char × List Char
  | [] => ([], [])
  | c :: cs => if c = ':' then ([], cs) else (c :: (breakColon cs).1, (breakColon cs).2)

/-- Modelled from the spec: the service prefix of an action, the part
before the `:` delimiter. -/
def serviceOf (a : String) : String :=
  ⟨(breakColon a.data).1⟩

/-- Modelled from the spec: the operation name of an action, the part
after the `:` delimiter. -/
def opOf (a : String) : String :=
  ⟨(breakColon a.data).2⟩

/-- Modelled from the spec (§4.1, include mode): keep an action iff its
service prefix is a member of the included set and the operation name
contains the required substring. Stated for comparison with the
implementation's test in `filterIncluded`. -/
def specIncludeKeep (prefixes : List String) (required : String) (a : String) : Bool :=
  prefixes.contains (serviceOf a) && strContains (opOf a) required

/-- The last `n` characters of a string. -/
def lastChars (n : Nat) (s : String) : String :=
  ⟨s.data.drop (s.data.length - n)⟩

lemma marginal_nonneg (a : String) : 0 ≤ marginal a := by
  simp only [marginal]; omega

lemma four_le_marginal (a : String) : 4 ≤ marginal a := by
  simp only [marginal]; omega

lemma sumCost_nonneg : ∀ g : List String, 0 ≤ sumCost g
  | [] => le_refl 0
  | a :: rest => by
      have h1 := marginal_nonneg a
      have h2 := sumCost_nonneg rest
      simp only [sumCost]; omega

lemma sumCost_append (g : List String) (b : String) :
    sumCost (g ++ [b]) = sumCost g + marginal b := by
  induction g with
  | nil => simp [sumCost]
  | cons a rest ih =>
      calc sumCost ((a :: rest) ++ [b]) = marginal a + sumCost (rest ++ [b]) := rfl
        _ = marginal a + (sumCost rest + marginal b) := by rw [ih]
        _ = sumCost (a :: rest) + marginal b := by simp only [sumCost]; ring

lemma sliceAux_nil (L : Int) (cur : List String) (len : Int)
    (res : List (List String)) :
    sliceAux L [] cur len res = if cur.isEmpty then res else res ++ [cur] := rfl

lemma sliceAux_cons (L : Int) (a : String) (rest cur : List String) (len : Int)
    (res : List (List String)) :
    sliceAux L (a :: rest) cur len res =
      if len + marginal a ≤ L then
        sliceAux L rest (cur ++ [a]) (len + marginal a) res
      else
        sliceAux L rest [a] ((a.length : Int)) (res ++ [cur]) := rfl

/-- The accumulated result only grows on the right: it factors out. -/
lemma sliceAux_res (L : Int) (acts : List String) :
    ∀ (cur : List String) (len : Int) (res : List (List String)),
      sliceAux L acts cur len res = res ++ sliceAux L acts cur len [] := by
  induction acts with
  | nil =>
      intro cur len res
      by_cases h : cur.isEmpty <;> simp [sliceAux_nil, h]
  | cons a rest ih =>
      intro cur len res
      by_cases h : len + marginal a ≤ L
      · rw [sliceAux_cons, if_pos h, sliceAux_cons, if_pos h, ih]
      · rw [sliceAux_cons, if_neg h, sliceAux_cons, if_neg h,
          ih [a] ((a.length : Int)) (res ++ [cur]),
          ih [a] ((a.length : Int)) ([] ++ [cur])]
        simp

/-- Concatenating the emitted groups recovers the pending slice and the
remaining input after the already-emitted part. -/
lemma sliceAux_flatten (L : Int) (acts : List String) :
    ∀ (cur : List String) (len : Int) (res : List (List String)),
      (sliceAux L acts cur len res).flatten = res.flatten ++ cur ++ acts := by
  induction acts with
  | nil =>
      intro cur len res
      by_cases h : cur.isEmpty
      · have hc : cur = [] := List.isEmpty_iff.mp h
        simp [sliceAux_nil, h, hc]
      · simp [sliceAux_nil, h]
  | cons a rest ih =>
      intro cur len res
      by_cases h : len + marginal a ≤ L
      · rw [sliceAux_cons, if_pos h, ih]; simp
      · rw [sliceAux_cons, if_neg h, ih]; simp

/-- If all upcoming actions fit the limit on their own, every emitted group's
counted cost stays at most `L + 4`. -/
lemma sliceAux_sum_le (L : Int) (acts : List String) :
    ∀ (cur : List String) (len : Int) (res : List (List String)),
      (∀ a ∈ acts, marginal a ≤ L) →
      sumCost cur ≤ len + 4 → len ≤ L →
      (∀ g ∈ res, sumCost g ≤ L + 4) →
      ∀ g ∈ sliceAux L acts cur len res, sumCost g ≤ L + 4 := by
  induction acts with
  | nil =>
      intro cur len res _ hcur hlen hres g hg
      rw [sliceAux_nil] at hg
      by_cases h : cur.isEmpty
      · rw [if_pos h] at hg; exact hres g hg
      · rw [if_neg h] at hg
        rcases List.mem_append.mp hg with h1 | h1
        · exact hres g h1
        · have hgc : g = cur := List.mem_singleton.mp h1
          subst hgc; omega
  | cons a rest ih =>
      intro cur len res hacts hcur hlen hres g hg
      have ha : marginal a ≤ L := hacts a (List.mem_cons_self a rest)
      have hrest : ∀ x ∈ rest, marginal x ≤ L :=
        fun x hx => hacts x (List.mem_cons_of_mem a hx)
      by_cases h : len + marginal a ≤ L
      · rw [sliceAux_cons, if_pos h] at hg
        refine ih (cur ++ [a]) (len + marginal a) res hrest ?_ h hres g hg
        rw [sumCost_append]; omega
      · rw [sliceAux_cons, if_neg h] at hg
        refine ih [a] ((a.length : Int)) (res ++ [cur]) hrest ?_ ?_ ?_ g hg
        · simp only [sumCost, marginal]; omega
        · simp only [marginal] at ha; omega
        · intro g2 hg2
          rcases List.mem_append.mp hg2 with h1 | h1
          · exact hres g2 h1
          · have hgc : g2 = cur := List.mem_singleton.mp h1
            subst hgc; omega

lemma nextOverflows_snoc (L : Int) (g cur : List String) (a : String)
    (hne : cur ≠ []) (h : nextOverflows L g cur) :
    nextOverflows L g (cur ++ [a]) := by
  intro b hb
  rcases cur with _ | ⟨c, t⟩
  · exact absurd rfl hne
  · rw [List.cons_append, List.head?_cons, Option.some_inj] at hb
    rw [← hb]
    exact h c rfl

/-- Every pair of adjacent emitted groups is linked by a failed fit check:
the later group's head overflowed the earlier group's counted size. -/
lemma sliceAux_chain (L : Int) (acts : List String) :
    ∀ (cur : List String) (len : Int) (res : List (List String)),
      len ≤ sumCost cur →
      ((res = [] ∧ cur = []) ∨
        (cur ≠ [] ∧ List.Chain' (nextOverflows L) (res ++ [cur]))) →
      List.Chain' (nextOverflows L) (sliceAux L acts cur len res) := by
  induction acts with
  | nil =>
      intro cur len res _ hinv
      rw [sliceAux_nil]
      by_cases h : cur.isEmpty
      · rw [if_pos h]
        have hc : cur = [] := List.isEmpty_iff.mp h
        rcases hinv with ⟨hres, _⟩ | ⟨hne, _⟩
        · subst hres; exact List.chain'_nil
        · exact absurd hc hne
      · rw [if_neg h]
        rcases hinv with ⟨hres, hc⟩ | ⟨_, hch⟩
        · subst hc; simp at h
        · exact hch
  | cons a rest ih =>
      intro cur len res hlen hinv
      by_cases h : len + marginal a ≤ L
      · rw [sliceAux_cons, if_pos h]
        refine ih (cur ++ [a]) (len + marginal a) res ?_ ?_
        · rw [sumCost_append]; omega
        · rcases hinv with ⟨hres, hc⟩ | ⟨hne, hch⟩
          · subst hres; subst hc
            exact Or.inr ⟨by simp, by simp⟩
          · refine Or.inr ⟨by simp, ?_⟩
            rw [List.chain'_append] at hch ⊢
            obtain ⟨h1, _, h3⟩ := hch
            refine ⟨h1, List.chain'_singleton _, fun x hx y hy => ?_⟩
            rw [List.head?_cons, Option.mem_def, Option.some_inj] at hy
            subst hy
            exact nextOverflows_snoc L x cur a hne
              (h3 x hx cur (by rw [List.head?_cons]; rfl))
      · rw [sliceAux_cons, if_neg h]
        have hkey : nextOverflows L cur [a] := by
          intro b hb
          rw [List.head?_cons, Option.some_inj] at hb
          subst hb
          omega
        refine ih [a] ((a.length : Int)) (res ++ [cur]) ?_ ?_
        · simp only [sumCost, marginal]; omega
        · refine Or.inr ⟨by simp, ?_⟩
          rcases hinv with ⟨hres, hc⟩ | ⟨hne, hch⟩
          · subst hres; subst hc
            simp only [List.nil_append]
            exact List.chain'_cons.mpr ⟨hkey, List.chain'_singleton _⟩
          · rw [List.chain'_append]
            refine ⟨hch, List.chain'_singleton _, fun x hx y hy => ?_⟩
            rw [List.getLast?_concat, Option.mem_def, Option.some_inj] at hx
            rw [List.head?_cons, Option.mem_def, Option.some_inj] at hy
            subst hx; subst hy
            exact hkey

/-- If the pending slice starts with an action that alone overflows the
limit, that slice is emitted as the singleton of that action. -/
lemma sliceAux_big_start (L : Int) (rest : List String) (a : String)
    (res : List (List String)) (h : L < marginal a) :
    ∃ t, sliceAux L rest [a] ((a.length : Int)) res = res ++ [a] :: t := by
  rcases rest with _ | ⟨b, rest2⟩
  · exact ⟨[], by rw [sliceAux_nil, if_neg (by simp)]⟩
  · have hb : ¬ ((a.length : Int) + marginal b ≤ L) := by
      have h4 := four_le_marginal b
      simp only [marginal] at h ⊢
      omega
    rw [sliceAux_cons, if_neg hb, sliceAux_res]
    exact ⟨sliceAux L rest2 [b] ((b.length : Int)) [], by simp⟩

/-- An action whose counted cost overflows the limit always ends up emitted
as a singleton group. -/
lemma sliceAux_big_mem (L : Int) (acts : List String) :
    ∀ (a : String) (cur : List String) (len : Int) (res : List (List String)),
      0 ≤ len → a ∈ acts → L < marginal a →
      [a] ∈ sliceAux L acts cur len res := by
  induction acts with
  | nil =>
      intro a cur len res _ ha _
      exact absurd ha (List.not_mem_nil a)
  | cons b rest ih =>
      intro a cur len res hlen ha hbig
      rcases List.mem_cons.mp ha with hab | hmem
      · subst hab
        have hfail : ¬ (len + marginal a ≤ L) := by omega
        rw [sliceAux_cons, if_neg hfail]
        obtain ⟨t, ht⟩ := sliceAux_big_start L rest a (res ++ [cur]) hbig
        rw [ht]
        simp
      · by_cases h : len + marginal b ≤ L
        · rw [sliceAux_cons, if_pos h]
          have h4 := four_le_marginal b
          exact ih a (cur ++ [b]) (len + marginal b) res (by omega) hmem hbig
        · rw [sliceAux_cons, if_neg h]
          exact ih a [b] ((b.length : Int)) (res ++ [cur])
            (Int.natCast_nonneg b.length) hmem hbig

lemma renderItems_length : ∀ (a : String) (rest : List String),
    ((renderItems (a :: rest)).length : Int) = sumCost (a :: rest) - 2
  | a, [] => by
      have h : renderItems [a] = "\"" ++ a ++ "\"" := rfl
      rw [h, String.length_append, String.length_append]
      have h1 : ("\"" : String).length = 1 := rfl
      rw [h1]
      simp only [sumCost, marginal]
      push_cast
      omega
  | a, b :: t => by
      have h : renderItems (a :: b :: t) = "\"" ++ a ++ "\", " ++ renderItems (b :: t) := rfl
      have ih := renderItems_length b t
      rw [h, String.length_append, String.length_append, String.length_append]
      have h1 : ("\"" : String).length = 1 := rfl
      have h2 : ("\", " : String).length = 3 := rfl
      rw [h1, h2]
      simp only [sumCost, marginal] at ih ⊢
      push_cast
      omega

lemma renderActionList_length (a : String) (rest : List String) :
    ((renderActionList (a :: rest)).length : Int) = sumCost (a :: rest) := by
  have h : renderActionList (a :: rest) = "[" ++ renderItems (a :: rest) ++ "]" := rfl
  rw [h, String.length_append, String.length_append]
  have h1 : ("[" : String).length = 1 := rfl
  have h2 : ("]" : String).length = 1 := rfl
  rw [h1, h2]
  have h3 := renderItems_length a rest
  push_cast
  omega

lemma overheadOf_eq (r : String) :
    overheadOf r = (docHead r).length + 2 + docTail.length := by
  show (docHead r ++ renderActionList [] ++ docTail).length = _
  rw [String.length_append, String.length_append]
  have h0 : (renderActionList []).length = 2 := rfl
  rw [h0]

lemma renderPolicy_length_nil (r : String) :
    (renderPolicy r []).length = overheadOf r := rfl

/-- The serialized document of a nonempty group: the template overhead minus
the empty brackets, plus the group's counted cost (which equals the true
rendered size of the action list). -/
lemma renderPolicy_length_cons (r : String) (a : String) (rest : List String) :
    ((renderPolicy r (a :: rest)).length : Int) =
      (overheadOf r : Int) - 2 + sumCost (a :: rest) := by
  have h : renderPolicy r (a :: rest) = docHead r ++ renderActionList (a :: rest) ++ docTail := rfl
  rw [h, String.length_append, String.length_append]
  have h1 := renderActionList_length a rest
  have h2 := overheadOf_eq r
  push_cast
  omega

lemma slice_list_nil (L : Int) : slice_list [] L = [] := rfl

lemma slice_list_flatten (actions : List String) (L : Int) :
    (slice_list actions L).flatten = actions := by
  have h := sliceAux_flatten L actions [] 0 []
  simpa [slice_list] using h

/-- Claim C1 (counterexample): the budget invariant fails on the code. With
budget exactly the template overhead (215 for resource `all`) the single
action `"x"` is emitted in a group whose rendered document has 218
characters; and even when every action's counted cost fits the limit, a
group after the first can render to budget + 2 characters (225 vs 227). -/
theorem C1_cex :
    (generate_policy "all" ["x"] 215 = [[], ["x"]] ∧
      ¬ ((renderPolicy "all" ["x"]).length ≤ 215)) ∧
    ((∀ a ∈ ["aaaaaa", "bbb", "ccc"],
        marginal a ≤ (225 : Int) - (overheadOf "all" : Int)) ∧
      generate_policy "all" ["aaaaaa", "bbb", "ccc"] 225 = [["aaaaaa"], ["bbb", "ccc"]] ∧
      ¬ ((renderPolicy "all" ["bbb", "ccc"]).length ≤ 225)) := by
  decide

/-- Claim C1 (amended): if every action's counted cost (length + 4) is at
most `max_char_count - overhead`, then every rendered policy document
produced by `generate_policy` has length at most `max_char_count + 2`
(the bound `max_char_count` itself is not guaranteed, and the slack 2 is
attained). -/
theorem C1_budget_amended (resource : String) (actions : List String) (mcc : Int)
    (hfit : ∀ a ∈ actions, marginal a ≤ mcc - (overheadOf resource : Int)) :
    ∀ d ∈ policyDocs resource actions mcc, (d.length : Int) ≤ mcc + 2 := by
  intro d hd
  obtain ⟨g, hg, rfl⟩ := List.mem_map.mp hd
  rcases actions with _ | ⟨a0, rest0⟩
  · rw [show generate_policy resource [] mcc =
        slice_list [] (mcc - (overheadOf resource : Int)) from rfl,
      slice_list_nil] at hg
    exact absurd hg (List.not_mem_nil g)
  · have h0 := hfit a0 (List.mem_cons_self a0 rest0)
    have h4 := four_le_marginal a0
    have hsum : sumCost g ≤ (mcc - (overheadOf resource : Int)) + 4 := by
      refine sliceAux_sum_le (mcc - (overheadOf resource : Int)) (a0 :: rest0)
        [] 0 [] hfit ?_ ?_ ?_ g hg
      · simp [sumCost]
      · omega
      · intro g2 hg2; exact absurd hg2 (List.not_mem_nil g2)
    rcases g with _ | ⟨b, gs⟩
    · rw [renderPolicy_length_nil]
      omega
    · have hlen := renderPolicy_length_cons resource b gs
      omega

/-- Witness for C1 (amended) at a concrete input. -/
theorem C1_budget_witness :
    (∀ a ∈ ["s3:CreateBucket"],
        marginal a ≤ (6144 : Int) - (overheadOf "all" : Int)) ∧
    ∀ d ∈ policyDocs "all" ["s3:CreateBucket"] 6144, (d.length : Int) ≤ 6144 + 2 :=
  ⟨by decide, C1_budget_amended "all" ["s3:CreateBucket"] 6144 (by decide)⟩

/-- Claim C2: concatenating the groups returned by `slice_list`, in emission
order, equals the input list exactly: no action lost, none duplicated,
order unchanged. -/
theorem C2_flatten_eq (actions : List String) (L : Int) :
    (slice_list actions L).flatten = actions :=
  slice_list_flatten actions L

/-- Claim C3 (counterexample): an action whose marginal cost exceeds the
limit does not make packing fail and does not keep it from producing
groups; `slice_list` returns groups containing the offending action. -/
theorem C3_cex :
    (3 : Int) < marginal "aaaaaa" ∧ slice_list ["aaaaaa"] 3 = [[], ["aaaaaa"]] := by
  decide

/-- Claim C3 (amended): no overflow error exists; an action whose counted
cost exceeds the character limit is emitted anyway, as a singleton group. -/
theorem C3_no_error_amended (actions : List String) (L : Int) (a : String)
    (ha : a ∈ actions) (hbig : L < marginal a) :
    [a] ∈ slice_list actions L :=
  sliceAux_big_mem L actions a [] 0 [] (le_refl 0) ha hbig

/-- Witness for C3 (amended) at a concrete input. -/
theorem C3_no_error_witness :
    "aaaaaa" ∈ ["bb", "aaaaaa"] ∧ (7 : Int) < marginal "aaaaaa" ∧
      ["aaaaaa"] ∈ slice_list ["bb", "aaaaaa"] 7 :=
  ⟨by decide, by decide,
    C3_no_error_amended ["bb", "aaaaaa"] 7 "aaaaaa" (by decide) (by decide)⟩

/-- Claim C4 (counterexample): the include filter is not delimiter-aware.
`"iamx:CreateY"` has service prefix `"iamx"`, not a member of `{"iam"}`, so
the claimed rule rejects it; the code keeps it because the raw string starts
with `"iam"`. -/
theorem C4_cex :
    filterIncluded ["iam"] "Create" ["iamx:CreateY"] = ["iamx:CreateY"] ∧
      specIncludeKeep ["iam"] "Create" "iamx:CreateY" = false := by
  decide

/-- Claim C4 (amended): an action is kept iff the whole action string starts
with some configured prefix (plain string-prefix test, not membership of the
part before `:`) and the required substring occurs anywhere in the action
string (not only in the operation name); the spec's example still yields
exactly `["iam:CreateRole"]`. -/
theorem C4_filter_amended :
    (∀ (prefixes : List String) (required : String) (actions : List String) (a : String),
        a ∈ filterIncluded prefixes required actions ↔
          a ∈ actions ∧
            (prefixes.any (fun p => strStarts a p) && strContains a required) = true) ∧
    filterIncluded ["iam"] "Create" ["s3:GetObject", "s3:PutObject", "iam:CreateRole"] =
      ["iam:CreateRole"] := by
  constructor
  · intro prefixes required actions a
    simp [filterIncluded, List.mem_filter]
  · decide

/-- Claim C5 (counterexample): two runs of the builder on different
resources and different action groups produce distinct documents with
identical condition blocks — the condition cannot be determined by any
configuration input, because the builder takes none. -/
theorem C5_cex :
    lastChars docTail.length (renderPolicy "A" ["s3:CreateBucket"]) =
      lastChars docTail.length (renderPolicy "B" ["iam:CreateRole", "kms:CreateKey"]) ∧
    renderPolicy "A" ["s3:CreateBucket"] ≠
      renderPolicy "B" ["iam:CreateRole", "kms:CreateKey"] := by
  decide

/-- Claim C5 (amended): the condition block is hard-coded, not configured:
every document built by `generate_policy`'s template ends with the same
fixed text (resource wildcard plus the `Null` checks on
`aws:RequestTag/CostCentre` and `aws:PrincipalTag/ByassTaggingScp`),
whatever the resource and action group. -/
theorem C5_condition_amended (r : String) (g : List String) :
    lastChars docTail.length (renderPolicy r g) = docTail := by
  have hdata : (renderPolicy r g).data =
      ((docHead r).data ++ (renderActionList g).data) ++ docTail.data := by
    rw [show renderPolicy r g = (docHead r ++ renderActionList g) ++ docTail from rfl,
      String.data_append, String.data_append]
  simp only [lastChars, hdata, List.length_append]
  rw [show docTail.length = docTail.data.length from rfl, Nat.add_sub_cancel,
    ← List.length_append ((docHead r).data) ((renderActionList g).data),
    List.drop_left]

/-- Claim C6 (counterexample): a malformed action (no `:` delimiter) raises
nothing; it is kept by the filter (it starts with `"iam"` and contains
`"Create"`) and flows through packing into the output. -/
theorem C6_cex :
    hasColon "iamCreateRole" = false ∧
    filteredActions ["iamCreateRole"] = ["iamCreateRole"] ∧
    generate_policy "all" (filteredActions ["iamCreateRole"]) 6144 = [["iamCreateRole"]] := by
  decide

/-- Claim C6 (amended): the pipeline performs no delimiter validation: an
action lacking `:` is subject to the very same prefix/substring test as any
other, and exactly when it passes that test it appears in the packed
output. -/
theorem C6_no_error_amended (actions : List String) (resource : String) (mcc : Int)
    (a : String) (ha : a ∈ actions) (hmal : hasColon a = false) :
    (a ∈ (generate_policy resource (filteredActions actions) mcc).flatten ↔
      (INCLUDE_SERVICES.any (fun p => strStarts a p) && strContains a "Create") = true) := by
  rw [show generate_policy resource (filteredActions actions) mcc =
      slice_list (filteredActions actions) (mcc - (overheadOf resource : Int)) from rfl,
    slice_list_flatten]
  simp [filteredActions, filterIncluded, List.mem_filter, ha]

/-- Witness for C6 (amended) at a concrete input. -/
theorem C6_no_error_witness :
    "iamCreateRole" ∈ ["iamCreateRole"] ∧ hasColon "iamCreateRole" = false ∧
    ("iamCreateRole" ∈
        (generate_policy "all" (filteredActions ["iamCreateRole"]) 6144).flatten ↔
      (INCLUDE_SERVICES.any (fun p => strStarts "iamCreateRole" p) &&
        strContains "iamCreateRole" "Create") = true) :=
  ⟨by decide, by decide,
    C6_no_error_amended ["iamCreateRole"] "all" 6144 "iamCreateRole" (by decide) (by decide)⟩

/-- Claim C7 (counterexample): with budget 227 (overhead 215 + limit 12) and
input `["aa", "bbb"]`, the packer closes the first group `["aa"]` although
appending `"bbb"` would render to only 226 ≤ 227 characters: the counted
cost overestimates the first element of a group by 2, so a closed group may
still have had room for the next action. -/
theorem C7_cex :
    generate_policy "all" ["aa", "bbb"] 227 = [["aa"], ["bbb"]] ∧
    (renderPolicy "all" ["aa", "bbb"]).length ≤ 227 := by
  decide

/-- Claim C7 (amended): first-fit holds for the counted sizes and, for the
true rendered sizes, with slack 2: for every emitted group followed by
another, appending the next group's first action would push the rendered
document strictly beyond `max_char_count - 2` (but not necessarily beyond
`max_char_count`). -/
theorem C7_firstfit_amended (resource : String) (actions : List String) (mcc : Int) :
    List.Chain'
      (fun g g2 => ∀ b, g2.head? = some b →
        mcc - 2 < ((renderPolicy resource (g ++ [b])).length : Int))
      (generate_policy resource actions mcc) := by
  rw [show generate_policy resource actions mcc =
      slice_list actions (mcc - (overheadOf resource : Int)) from rfl]
  refine List.Chain'.imp ?_
    (sliceAux_chain _ actions [] 0 [] (by simp [sumCost]) (Or.inl ⟨rfl, rfl⟩))
  intro g g2 hno b hb
  have hkey := hno b hb
  rcases g with _ | ⟨a, gs⟩
  · have h1 := renderPolicy_length_cons resource b []
    simp only [List.nil_append]
    simp only [sumCost] at hkey h1
    omega
  · have h1 := renderPolicy_length_cons resource a (gs ++ [b])
    rw [show (a :: gs) ++ [b] = a :: (gs ++ [b]) from rfl]
    have h2 : sumCost (a :: (gs ++ [b])) = sumCost (a :: gs) + marginal b := by
      rw [show a :: (gs ++ [b]) = (a :: gs) ++ [b] from rfl, sumCost_append]
    omega

/-- Claim C8: an empty action sequence packs to zero groups (not one empty
group), and a run whose filtering leaves no actions produces zero policy
documents. -/
theorem C8_empty (r : String) (mcc L : Int) (actions : List String) :
    slice_list [] L = [] ∧
    (filteredActions actions = [] → policyDocs r (filteredActions actions) mcc = []) := by
  refine ⟨rfl, fun h => ?_⟩
  rw [h]
  rfl

/-- Witness for C8 at a concrete input whose filtering leaves no actions. -/
theorem C8_empty_witness :
    slice_list [] 0 = [] ∧ policyDocs "all" (filteredActions ["zzz:GetThing"]) 6144 = [] :=
  ⟨(C8_empty "all" 6144 0 ["zzz:GetThing"]).1,
    (C8_empty "all" 6144 0 ["zzz:GetThing"]).2 (by decide)⟩

/-- Claim C9: packing is deterministic — `slice_list` is a pure function of
its two arguments (the embedding of the loop uses no other state), so two
runs on the same input and budget yield identical group lists. -/
theorem C9_deterministic (actions : List String) (L : Int) :
    slice_list actions L = slice_list actions L := rfl

/-- Claim C10: `slice_list` is total (it returns for every input rather than
raising): an action whose counted cost exceeds the limit is emitted alone in
its own group, and when the very first action is oversized the result starts
with an empty group followed by that singleton group. -/
theorem C10_oversized_behavior :
    (∀ (actions : List String) (L : Int) (a : String),
        a ∈ actions → L < marginal a → [a] ∈ slice_list actions L) ∧
    (∀ (a : String) (rest : List String) (L : Int),
        L < marginal a → ∃ t, slice_list (a :: rest) L = [] :: [a] :: t) := by
  constructor
  · intro actions L a ha hbig
    exact sliceAux_big_mem L actions a [] 0 [] (le_refl 0) ha hbig
  · intro a rest L hbig
    have hfail : ¬ ((0 : Int) + marginal a ≤ L) := by omega
    rw [show slice_list (a :: rest) L = sliceAux L (a :: rest) [] 0 [] from rfl,
      sliceAux_cons, if_neg hfail]
    obtain ⟨t, ht⟩ := sliceAux_big_start L rest a ([] ++ [[]]) hbig
    rw [ht]
    exact ⟨t, by simp⟩

/-- Witness for C10 at concrete inputs. -/
theorem C10_oversized_witness :
    ((6 : Int) < marginal "dddddd" ∧ ["dddddd"] ∈ slice_list ["a", "dddddd"] 6) ∧
    ((2 : Int) < marginal "eeeeee" ∧
      ∃ t, slice_list ("eeeeee" :: ["f"]) 2 = [] :: ["eeeeee"] :: t) :=
  ⟨⟨by decide, C10_oversized_behavior.1 ["a", "dddddd"] 6 "dddddd" (by decide) (by decide)⟩,
    ⟨by decide, C10_oversized_behavior.2 "eeeeee" ["f"] 2 (by decide)⟩⟩
